import Mathlib

/-!
Shallow embedding of the miscue-tolerant prompt language-model FST builder
(`prompt_lmfst.py` and `make_one_miscue_tolerant_lm.py`).

Conventions of the embedding:
* word labels are `String`; FST state ids are `Nat`;
* numeric weights are `ℚ` (the script's weights are the literals
  100, 5, 10, 30, 5, 5, 5, 3 and 0.0, all exactly representable);
* the `states` dict of `PromptLMFST` is modelled as a total function
  `Nat → List Leaf` whose default value is `[]`: the Python code registers
  an empty list for every allocated state id and only ever reads ids it
  has allocated, so registration is invisible to every operation;
* Python exceptions are modelled with `Except`.
-/

namespace MiscueFST

/-- `Arc = namedtuple("Arc", "from_state to_state in_label out_label weight")`. -/
structure Arc where
  from_state : Nat
  to_state : Nat
  in_label : String
  out_label : String
  weight : ℚ
deriving DecidableEq, Repr

/-- `FinalState = namedtuple("FinalState", "state weight")`. -/
structure FinalState where
  state : Nat
  weight : ℚ
deriving DecidableEq, Repr

/-- An entry of a state's transition list ("leaf" in `inText`): either an
`Arc` or a `FinalState` marker.  The Python code stores both namedtuples in
the same list and discriminates by probing for the `in_label` attribute. -/
inductive Leaf where
  | arc (a : Arc)
  | final (f : FinalState)
deriving DecidableEq, Repr

/-- `Word.__init__`: label plus the FST state entered before the word and the
state reached after it.  (The `next_start`/`prev_final` attributes are plain
aliases of `final`/`start` and are never read by the scripts; omitted.) -/
structure Word where
  label : String
  start : Nat
  final : Nat
deriving DecidableEq, Repr

/-- The `PromptLMFST` object.  `homophones` is the defaultdict produced by
`readHomophones`: a total lookup returning the (possibly empty) homophone
set of a label; we model the set as a `List String` and use membership only.
The `ID` attribute only affects the optional header line of `inText` and is
omitted. -/
structure PromptLMFST where
  words : List Word
  states : Nat → List Leaf
  state_counter : Nat
  initialised : Bool
  homophones : String → List String

/-- `PromptLMFST.__init__`: no words, empty states, counter 0, not
initialised. -/
def initFST (hom : String → List String) : PromptLMFST :=
  { words := [], states := fun _ => [], state_counter := 0,
    initialised := false, homophones := hom }

/-- `readHomophones(None)`: the defaultdict with every lookup empty
(no homophones file supplied). -/
def emptyHom : String → List String := fun _ => []

/-- `newState`: bump the counter, register the fresh id (a no-op in the
total-function model) and return it. -/
def newState (g : PromptLMFST) : PromptLMFST × Nat :=
  ({ g with state_counter := g.state_counter + 1 }, g.state_counter + 1)

/-- `curr_word`: the last word added; raises
`RuntimeError("Tried to get current word but no words added yet.")` when the
chain is uninitialised.  (`words[-1]` on an initialised chain always exists
along the API; the `IndexError` branch is unreachable.) -/
def curr_word (g : PromptLMFST) : Except String Word :=
  if g.initialised then
    match g.words.getLast? with
    | some w => .ok w
    | none => .error "IndexError"
  else
    .error "RuntimeError: Tried to get current word but no words added yet."

/-- `addNextWord`: append one word to the chain.  In the uninitialised branch
the new word starts at the current counter value (the initial state) and ends
at a fresh state; afterwards each word starts at the previous word's final
state.  Python evaluates `self.curr_word.final` before `self.newState()`. -/
def addNextWord (g : PromptLMFST) (label : String) : PromptLMFST :=
  if g.initialised then
    match g.words.getLast? with
    | some w =>
        let r := newState g
        { r.1 with words := r.1.words ++ [⟨label, w.final, r.2⟩] }
    | none => g
  else
    let start := g.state_counter
    let r := newState g
    { r.1 with words := r.1.words ++ [⟨label, start, r.2⟩], initialised := true }

/-- `addWordSequence`: fold `addNextWord` over the prompt labels. -/
def addWordSequence (g : PromptLMFST) (sequence : List String) : PromptLMFST :=
  sequence.foldl addNextWord g

/-- `getattr(item, "in_label", None)`: an `Arc` yields its input label, a
`FinalState` yields `None`. -/
def leafInLabel : Leaf → Option String
  | .arc a => some a.in_label
  | .final _ => none

/-- `homophones[key]` where `key` may be `None`: the defaultdict never holds
`None` as a key, so the lookup returns the empty set. -/
def homLookup (hom : String → List String) : Option String → List String
  | none => []
  | some l => hom l

/-- `homophoneArcExists`: some entry of the state's transition list has an
`in_label` (taken as `None` for final markers) whose homophone set contains
`label`.  (Python collects the labels into a set first; deduplication does
not change the result of `any`.) -/
def homophoneArcExists (g : PromptLMFST) (from_state : Nat) (label : String) : Bool :=
  (g.states from_state).any (fun item => label ∈ homLookup g.homophones (leafInLabel item))

/-- `addArc`: append the arc to `from_state`'s transition list unless
`homophoneArcExists` holds there. -/
def addArc (g : PromptLMFST) (from_state to_state : Nat)
    (in_label out_label : String) (weight : ℚ) : PromptLMFST :=
  if homophoneArcExists g from_state in_label then g
  else
    { g with states := fun s =>
        if s = from_state then
          g.states s ++ [Leaf.arc ⟨from_state, to_state, in_label, out_label, weight⟩]
        else g.states s }

/-- `addFinalState`: unconditionally append a final marker. -/
def addFinalState (g : PromptLMFST) (state : Nat) (weight : ℚ) : PromptLMFST :=
  { g with states := fun s =>
      if s = state then g.states s ++ [Leaf.final ⟨state, weight⟩] else g.states s }

/-- One state's pass of `isDeterministic`: `seen` collects the keys of
`seen_labels`.  The membership test uses `getattr(item, "in_label", None)`,
but the insertion uses `item.in_label` directly, which raises
`AttributeError` (modelled as `.error ()`) on a `FinalState` entry. -/
def detScanState : List Leaf → List (Option String) → Except Unit Bool
  | [], _ => .ok true
  | item :: rest, seen =>
    if leafInLabel item ∈ seen then .ok false
    else
      match item with
      | .arc a => detScanState rest (some a.in_label :: seen)
      | .final _ => .error ()

/-- The outer loop of `isDeterministic` over the listed state ids:
`return False` and the exception abort the whole scan. -/
def detScanStates (g : PromptLMFST) : List Nat → Except Unit Bool
  | [] => .ok true
  | s :: rest =>
    match detScanState (g.states s) [] with
    | .error e => .error e
    | .ok false => .ok false
    | .ok true => detScanStates g rest

/-- `isDeterministic`: scan every registered state.  The registered ids are
exactly `0..state_counter` once a word has been added (the counter only ever
increments); for the word-less graph Python's dict is empty while this model
scans the lone empty state 0, with the same result `True`. -/
def isDeterministic (g : PromptLMFST) : Except Unit Bool :=
  detScanStates g (List.range (g.state_counter + 1))

/-- The relative-weight table of the script (`0.0` for `FinalState`).
Python raises `KeyError` on unknown keys; the recipes only use the listed
ones, so the default branch is never hit. -/
def weights (k : String) : ℚ :=
  if k = "Correct" then 100
  else if k = "Rubbish" then 5
  else if k = "Skip" then 10
  else if k = "Repeat" then 30
  else if k = "JumpForward" then 5
  else if k = "JumpBackward" then 5
  else if k = "Truncation" then 5
  else if k = "PrematureEnd" then 3
  else if k = "FinalState" then 0
  else 0

/-- `special_labels["Epsilon"]`.  The source's dict literal is missing the
comma after this entry (the malformed mapping flagged in the design notes);
the intended three tokens are modelled. -/
def epsLabel : String := "<eps>"

/-- `special_labels["Rubbish"]`. -/
def rubLabel : String := "[RUB]"

/-- `special_labels["Skip"]`. -/
def skpLabel : String := "[SKP]"

/-- `addCorrectPaths`: one arc `start → final` per word labelled with the
word, then a final marker on the last word's final state.  (`words[-1]` on an
empty chain would raise `IndexError`; the recipes are only run on non-empty
chains, and the model returns the graph unchanged in that unreachable case.) -/
def addCorrectPaths (g : PromptLMFST) : PromptLMFST :=
  let g1 := g.words.foldl
    (fun acc w => addArc acc w.start w.final w.label w.label (weights "Correct")) g
  match g1.words.getLast? with
  | some w => addFinalState g1 w.final (weights "FinalState")
  | none => g1

/-- `addRubbishPaths`: a rubbish self-loop at every word's start state and at
the last word's final state. -/
def addRubbishPaths (g : PromptLMFST) : PromptLMFST :=
  let g1 := g.words.foldl
    (fun acc w => addArc acc w.start w.start rubLabel rubLabel (weights "Rubbish")) g
  match g1.words.getLast? with
  | some w => addArc g1 w.final w.final rubLabel rubLabel (weights "Rubbish")
  | none => g1

/-- `zip(p_fst.words, p_fst.words[1:])`. -/
def zipAdj (ws : List Word) : List (Word × Word) := ws.zip ws.tail

/-- The body of the skip loop for one adjacent pair: nothing when the two
labels coincide (`if word.label != next_word.label` in the source), otherwise
a fresh skip state and the two guarded arc insertions. -/
def skipStep (acc : PromptLMFST) (p : Word × Word) : PromptLMFST :=
  if p.1.label = p.2.label then acc
  else
    let r := newState acc
    addArc (addArc r.1 p.1.start r.2 p.2.label skpLabel (weights "Skip"))
      r.2 p.2.final epsLabel p.2.label (weights "Correct")

/-- `addSkipPaths`: the pair loop, then the epsilon-to-skip-marker arc on the
last word's own span. -/
def addSkipPaths (g : PromptLMFST) : PromptLMFST :=
  let g1 := (zipAdj g.words).foldl skipStep g
  match g1.words.getLast? with
  | some w => addArc g1 w.start w.final epsLabel skpLabel (weights "Skip")
  | none => g1

/-- The body of the repeat loop for one adjacent pair. -/
def repeatStep (acc : PromptLMFST) (p : Word × Word) : PromptLMFST :=
  if p.1.label = p.2.label then acc
  else addArc acc p.1.final p.1.final p.1.label p.1.label (weights "Repeat")

/-- `addRepeatPaths`: the pair loop, then the unconditional self-loop at the
last word's final state. -/
def addRepeatPaths (g : PromptLMFST) : PromptLMFST :=
  let g1 := (zipAdj g.words).foldl repeatStep g
  match g1.words.getLast? with
  | some w => addArc g1 w.final w.final w.label w.label (weights "Repeat")
  | none => g1

/-- The full construction in the documented order: word-chain ingestion, then
the correct-path, rubbish, skip and repeat generators. -/
def buildMiscueFST (hom : String → List String) (prompt : List String) : PromptLMFST :=
  addRepeatPaths (addSkipPaths (addRubbishPaths (addCorrectPaths
    (addWordSequence (initFST hom) prompt))))

/-- The words produced by appending the labels `ws` when the next fresh state
is `c + 1` and the pending start state is `c`. -/
def extChain (c : Nat) : List String → List Word
  | [] => []
  | l :: rest => ⟨l, c, c + 1⟩ :: extChain (c + 1) rest

/-- The unguarded insertion that `addArc` performs when the homophone guard
is clear. -/
def pushArc (g : PromptLMFST) (f t : Nat) (il ol : String) (w : ℚ) : PromptLMFST :=
  { g with states := fun s =>
      if s = f then g.states s ++ [Leaf.arc ⟨f, t, il, ol, w⟩] else g.states s }

/-- Entries added at state `s` by the correct-path arc loop over
`extChain c ws`. -/
def corrDelta (c : Nat) : List String → Nat → List Leaf
  | [], _ => []
  | l :: rest, s =>
    (if s = c then [Leaf.arc ⟨c, c + 1, l, l, weights "Correct"⟩] else [])
      ++ corrDelta (c + 1) rest s

/-- The adjacent word pairs of the chain `extChain c ws`, as traversed by
`zip(p_fst.words, p_fst.words[1:])`. -/
def adjPairs (c : Nat) : List String → List (Word × Word)
  | a :: b :: rest => (⟨a, c, c + 1⟩, ⟨b, c + 1, c + 2⟩) :: adjPairs (c + 1) (b :: rest)
  | _ => []

/-- Entries added at state `s` by the repeat pair loop over the chain
starting at state `c`. -/
def repDelta (c : Nat) : List String → Nat → List Leaf
  | a :: b :: rest, s =>
    (if a = b then []
     else if s = c + 1 then [Leaf.arc ⟨c + 1, c + 1, a, a, weights "Repeat"⟩] else [])
      ++ repDelta (c + 1) (b :: rest) s
  | _, _ => []

/-- The prompt `A A B` used in the spec's suppression examples. -/
def promptAAB : List String := ["A", "A", "B"]

/-- The ingested word chain for `A A B` (no homophones file). -/
def chainAAB : PromptLMFST := addWordSequence (initFST emptyHom) promptAAB

/-- Number of adjacent pairs with differing labels: each one allocates one
fresh skip state. -/
def countDiff : List String → Nat
  | a :: b :: rest => (if a = b then 0 else 1) + countDiff (b :: rest)
  | _ => 0

/-- Entries added at state `s` by the skip pair loop over the chain starting
at state `c`, when the state counter stands at `k`. -/
def skipDelta (c k : Nat) : List String → Nat → List Leaf
  | a :: b :: rest, s =>
    if a = b then skipDelta (c + 1) k (b :: rest) s
    else
      ((if s = c then [Leaf.arc ⟨c, k + 1, b, skpLabel, weights "Skip"⟩] else []) ++
       (if s = k + 1 then [Leaf.arc ⟨k + 1, c + 2, epsLabel, b, weights "Correct"⟩] else []))
      ++ skipDelta (c + 1) (k + 1) (b :: rest) s
  | _, _ => []

/-- A state with one `"A"`-labelled arc, empty homophone relation. -/
def gOneA : PromptLMFST := addArc (initFST emptyHom) 0 1 "A" "A" (weights "Correct")

/-- The homophone relation declaring `read` and `red` homophones (one group
line `read red`, as `readHomophones` would build it). -/
def homRR : String → List String :=
  fun w => if w = "read" ∨ w = "red" then ["read", "red"] else []

/-- A graph whose state 0 already holds a `read`-labelled arc under the
`read`/`red` homophone relation. -/
def gRead : PromptLMFST := addArc (initFST homRR) 0 1 "read" "read" (weights "Correct")

/-- A path through the graph: a chain of arcs, each present in its source
state's transition list, collecting the input labels in order. -/
inductive HasPath (g : PromptLMFST) : Nat → List String → Nat → Prop
  | nil (s : Nat) : HasPath g s [] s
  | cons (a : Arc) (t : Nat) (ls : List String)
      (hmem : Leaf.arc a ∈ g.states a.from_state)
      (htail : HasPath g a.to_state ls t) :
      HasPath g a.from_state (a.in_label :: ls) t

/-- The reserved special non-word labels (epsilon and the two markers). -/
def isSpecialLabel (l : String) : Bool :=
  l == epsLabel || l == rubLabel || l == skpLabel

/-- The relative arc weights competing at a state, in list order (final
markers carry no competing relative weight and are excluded). -/
def stateArcWeights (g : PromptLMFST) (s : Nat) : List ℚ :=
  (g.states s).filterMap (fun leaf =>
    match leaf with
    | .arc a => some a.weight
    | .final _ => none)

/-- One emitted output line, with the weight field already converted to a
real-valued cost. -/
inductive EmitLine where
  | arc (from_state to_state : Nat) (in_label out_label : String) (cost : ℝ)
  | final (state : Nat) (cost : ℝ)

/-- Modelled from the spec: the weight-normalizing serializer.  The driver
that normalizes the relative weights and prints the graph is the truncated
tail of `make_one_miscue_tolerant_lm.py` (the file ends mid-main, after the
generator definitions), so it is modelled from §4.5 of the design: each
arc's relative weight is divided by the sum of the arc weights competing at
its source state and emitted as the negative natural logarithm of that
probability, while a `FinalState` weight is emitted as-is. -/
noncomputable def emitState (g : PromptLMFST) (s : Nat) : List EmitLine :=
  (g.states s).map (fun leaf =>
    match leaf with
    | .arc a => EmitLine.arc a.from_state a.to_state a.in_label a.out_label
        (-Real.log ((a.weight : ℝ) / ((stateArcWeights g s).sum : ℝ)))
    | .final fs => EmitLine.final fs.state (fs.weight : ℝ))

/-- A state with two competing arcs of relative weights `10` and `30` and a
final marker of weight `7`. -/
def gTwoArcs : PromptLMFST :=
  addFinalState (addArc (addArc (initFST emptyHom) 0 1 "a" "a" 10) 0 2 "b" "b" 30) 0 7

/-! ## Theorems -/

/-- Record extensionality for `PromptLMFST` (the `states` field is a
function, so we need pointwise equality). -/
theorem PromptLMFST.ext_of (g₁ g₂ : PromptLMFST)
    (hw : g₁.words = g₂.words) (hs : ∀ s, g₁.states s = g₂.states s)
    (hc : g₁.state_counter = g₂.state_counter) (hi : g₁.initialised = g₂.initialised)
    (hh : g₁.homophones = g₂.homophones) : g₁ = g₂ := by
  cases g₁; cases g₂
  simp only [PromptLMFST.mk.injEq] at *
  exact ⟨hw, funext hs, hc, hi, hh⟩

theorem extChain_length (c : Nat) (ws : List String) :
    (extChain c ws).length = ws.length := by
  induction ws generalizing c with
  | nil => rfl
  | cons l rest ih => simp [extChain, ih]

theorem extChain_getD (c i : Nat) (ws : List String) (d : Word) (h : i < ws.length) :
    (extChain c ws).getD i d = ⟨ws.getD i "", c + i, c + i + 1⟩ := by
  induction ws generalizing c i with
  | nil => simp at h
  | cons l rest ih =>
    cases i with
    | zero => rfl
    | succ j =>
      have hj : j < rest.length := by simpa using h
      have := ih (c + 1) j hj
      simp only [extChain, List.getD_cons_succ, this, Word.mk.injEq]
      exact ⟨trivial, by omega, by omega⟩

theorem extChain_getLast? (c : Nat) (ws : List String) (h : ws ≠ []) :
    (extChain c ws).getLast? =
      some ⟨ws.getD (ws.length - 1) "", c + ws.length - 1, c + ws.length⟩ := by
  induction ws generalizing c with
  | nil => exact absurd rfl h
  | cons l rest ih =>
    cases rest with
    | nil => simp [extChain]
    | cons b tl =>
      have hne : (b :: tl) ≠ ([] : List String) := by simp
      have hrec := ih (c + 1) hne
      simp only [extChain] at hrec ⊢
      rw [List.getLast?_cons_cons] at *
      rw [hrec]
      simp only [List.length_cons, List.getD_cons_succ, Option.some.injEq, Word.mk.injEq]
      refine ⟨rfl, by omega, by omega⟩

/-- Appending labels to an initialised chain whose last word's final state is
the current counter extends `words` by `extChain` and bumps the counter by
the number of labels; nothing else changes. -/
theorem addWordSequence_extend (ws : List String) (g : PromptLMFST) (w : Word)
    (hinit : g.initialised = true) (hlast : g.words.getLast? = some w)
    (hfin : w.final = g.state_counter) :
    addWordSequence g ws =
      { g with words := g.words ++ extChain g.state_counter ws,
               state_counter := g.state_counter + ws.length } := by
  induction ws generalizing g w with
  | nil =>
    apply PromptLMFST.ext_of <;> simp [addWordSequence, extChain]
  | cons l rest ih =>
    have hstep : addNextWord g l =
        { g with words := g.words ++ [⟨l, g.state_counter, g.state_counter + 1⟩],
                 state_counter := g.state_counter + 1 } := by
      simp [addNextWord, hinit, hlast, newState, hfin]
    have hlast' : ({ g with
        words := g.words ++ [⟨l, g.state_counter, g.state_counter + 1⟩],
        state_counter := g.state_counter + 1 } : PromptLMFST).words.getLast? =
        some ⟨l, g.state_counter, g.state_counter + 1⟩ := by
      simp
    have := ih ({ g with
        words := g.words ++ [⟨l, g.state_counter, g.state_counter + 1⟩],
        state_counter := g.state_counter + 1 }) ⟨l, g.state_counter, g.state_counter + 1⟩
        hinit hlast' rfl
    show addWordSequence (addNextWord g l) rest = _
    rw [hstep, this]
    apply PromptLMFST.ext_of <;> simp [extChain] <;> omega

/-- The word chain built from a fresh graph: `addWordSequence` on `initFST`
yields exactly the linear chain through states `0..ws.length`, with the
states dict still holding only empty lists. -/
theorem addWordSequence_init (hom : String → List String) (ws : List String) :
    addWordSequence (initFST hom) ws =
      { words := extChain 0 ws, states := fun _ => [],
        state_counter := ws.length, initialised := !ws.isEmpty,
        homophones := hom } := by
  cases ws with
  | nil => apply PromptLMFST.ext_of <;> simp [addWordSequence, initFST, extChain]
  | cons l rest =>
    have hstep : addNextWord (initFST hom) l =
        { words := [⟨l, 0, 1⟩], states := fun _ => [], state_counter := 1,
          initialised := true, homophones := hom } := by
      simp [addNextWord, initFST, newState]
    show addWordSequence (addNextWord (initFST hom) l) rest = _
    rw [hstep, addWordSequence_extend rest _ ⟨l, 0, 1⟩ rfl (by simp) rfl]
    apply PromptLMFST.ext_of <;> simp [extChain] <;> omega

theorem addArc_of_guard_false (g : PromptLMFST) (f t : Nat) (il ol : String) (w : ℚ)
    (h : homophoneArcExists g f il = false) :
    addArc g f t il ol w = pushArc g f t il ol w := by
  simp [addArc, pushArc, h]

/-- With the empty homophone relation the guard never fires. -/
theorem homophoneArcExists_emptyHom (g : PromptLMFST) (h : g.homophones = emptyHom)
    (s : Nat) (l : String) : homophoneArcExists g s l = false := by
  unfold homophoneArcExists
  rw [List.any_eq_false]
  intro item _
  cases item <;> simp [homLookup, leafInLabel, h, emptyHom]

theorem addArc_emptyHom (g : PromptLMFST) (h : g.homophones = emptyHom)
    (f t : Nat) (il ol : String) (w : ℚ) :
    addArc g f t il ol w = pushArc g f t il ol w :=
  addArc_of_guard_false g f t il ol w (homophoneArcExists_emptyHom g h f il)

/-- An empty transition list clears the guard, whatever the homophones. -/
theorem homophoneArcExists_of_empty (g : PromptLMFST) (s : Nat) (l : String)
    (h : g.states s = []) : homophoneArcExists g s l = false := by
  unfold homophoneArcExists
  rw [h]
  rfl

theorem corrDelta_low (ws : List String) (c s : Nat) (h : s < c) :
    corrDelta c ws s = [] := by
  induction ws generalizing c with
  | nil => rfl
  | cons l rest ih =>
    have : s ≠ c := by omega
    simp [corrDelta, this, ih (c + 1) (by omega)]

theorem corrDelta_at (ws : List String) (c i : Nat) (h : i < ws.length) :
    corrDelta c ws (c + i) =
      [Leaf.arc ⟨c + i, c + i + 1, ws.getD i "", ws.getD i "", weights "Correct"⟩] := by
  induction ws generalizing c i with
  | nil => simp at h
  | cons l rest ih =>
    cases i with
    | zero => simp [corrDelta, corrDelta_low rest (c + 1) c (by omega)]
    | succ j =>
      have hj : j < rest.length := by simpa using h
      have hne : c + (j + 1) ≠ c := by omega
      have := ih (c + 1) j hj
      have harith : c + 1 + j = c + (j + 1) := by omega
      rw [harith] at this
      simp [corrDelta, hne, this, harith]

/-- The correct-path arc loop appends exactly `corrDelta` when run on a graph
whose states from `c` upward are still empty (any homophone relation: the
guard scans only empty lists). -/
theorem correct_fold (ws : List String) (c : Nat) (g : PromptLMFST)
    (hst : ∀ s, c ≤ s → g.states s = []) :
    (extChain c ws).foldl
      (fun acc w => addArc acc w.start w.final w.label w.label (weights "Correct")) g
    = { g with states := fun s => g.states s ++ corrDelta c ws s } := by
  induction ws generalizing c g with
  | nil =>
    apply PromptLMFST.ext_of <;> simp [extChain, corrDelta]
  | cons l rest ih =>
    have hguard : homophoneArcExists g c l = false :=
      homophoneArcExists_of_empty g c l (hst c (Nat.le_refl c))
    have hst' : ∀ s, c + 1 ≤ s →
        (pushArc g c (c + 1) l l (weights "Correct")).states s = [] := by
      intro s hs
      have hne : s ≠ c := by omega
      simp [pushArc, hne, hst s (by omega)]
    have hrec := ih (c + 1) (pushArc g c (c + 1) l l (weights "Correct")) hst'
    show (extChain c (l :: rest)).foldl _ g = _
    rw [show extChain c (l :: rest) = ⟨l, c, c + 1⟩ :: extChain (c + 1) rest from rfl]
    rw [List.foldl_cons]
    simp only [addArc_of_guard_false g c (c + 1) l l (weights "Correct") hguard] at *
    rw [hrec]
    apply PromptLMFST.ext_of <;> try simp [pushArc]
    intro s
    by_cases hs : s = c <;> simp [pushArc, hs, corrDelta]

/-- `addCorrectPaths` on the freshly ingested chain: each state `i < n`
carries exactly the correct arc `i → i+1`, and state `n` exactly the final
marker. -/
theorem addCorrectPaths_chain (hom : String → List String) (ws : List String)
    (hne : ws ≠ []) :
    addCorrectPaths (addWordSequence (initFST hom) ws) =
      { words := extChain 0 ws,
        states := fun s =>
          corrDelta 0 ws s ++
            (if s = ws.length then [Leaf.final ⟨ws.length, weights "FinalState"⟩] else []),
        state_counter := ws.length, initialised := !ws.isEmpty,
        homophones := hom } := by
  rw [addWordSequence_init hom ws]
  unfold addCorrectPaths
  rw [correct_fold ws 0 _ (fun s _ => rfl)]
  simp only []
  rw [extChain_getLast? 0 ws hne]
  apply PromptLMFST.ext_of <;> try simp [addFinalState]
  intro s
  by_cases hs : s = ws.length <;> simp [addFinalState, hs]

theorem zipAdj_extChain (c : Nat) (ws : List String) :
    zipAdj (extChain c ws) = adjPairs c ws := by
  induction ws generalizing c with
  | nil => rfl
  | cons a rest ih =>
    cases rest with
    | nil => rfl
    | cons b tl =>
      show zipAdj (⟨a, c, c + 1⟩ :: extChain (c + 1) (b :: tl)) = _
      rw [show extChain (c + 1) (b :: tl) = ⟨b, c + 1, c + 2⟩ :: extChain (c + 2) tl from rfl]
      simp only [zipAdj, List.tail_cons, List.zip_cons_cons, adjPairs, List.cons.injEq]
      exact ⟨trivial, ih (c + 1)⟩

theorem repDelta_low (ws : List String) (c s : Nat) (h : s ≤ c) :
    repDelta c ws s = [] := by
  induction ws generalizing c with
  | nil => rfl
  | cons a rest ih =>
    cases rest with
    | nil => rfl
    | cons b tl =>
      have hne : s ≠ c + 1 := by omega
      simp only [repDelta, hne, if_false, List.append_eq_nil]
      refine ⟨by split <;> simp, ih (c + 1) (by omega)⟩

theorem repDelta_high (ws : List String) (c s : Nat) (h : c + ws.length ≤ s) :
    repDelta c ws s = [] := by
  induction ws generalizing c with
  | nil => rfl
  | cons a rest ih =>
    cases rest with
    | nil => rfl
    | cons b tl =>
      have hne : s ≠ c + 1 := by simp only [List.length_cons] at h; omega
      have hrec := ih (c + 1) (by simp only [List.length_cons] at h ⊢; omega)
      simp only [repDelta, hne, if_false, hrec, List.append_nil]
      split <;> simp

theorem repDelta_at (ws : List String) (c i : Nat) (h : i + 1 < ws.length) :
    repDelta c ws (c + i + 1) =
      if ws.getD i "" = ws.getD (i + 1) "" then []
      else [Leaf.arc ⟨c + i + 1, c + i + 1, ws.getD i "", ws.getD i "", weights "Repeat"⟩] := by
  induction ws generalizing c i with
  | nil => simp at h
  | cons a rest ih =>
    cases rest with
    | nil => simp at h
    | cons b tl =>
      cases i with
      | zero =>
        have htl : repDelta (c + 1) (b :: tl) (c + 1) = [] :=
          repDelta_low (b :: tl) (c + 1) (c + 1) (Nat.le_refl _)
        by_cases hab : a = b <;> simp [repDelta, hab, htl]
      | succ j =>
        have hj : j + 1 < (b :: tl).length := by simp at h ⊢; omega
        have hrec := ih (c + 1) j hj
        have harith : c + 1 + j + 1 = c + (j + 1) + 1 := by omega
        rw [harith] at hrec
        have hne : c + (j + 1) + 1 ≠ c + 1 := by omega
        by_cases hab : a = b <;>
          simp [repDelta, hab, hne, hrec, harith]

/-- The repeat pair loop under the empty homophone relation appends exactly
`repDelta`. -/
theorem repeat_fold (ws : List String) (c : Nat) (g : PromptLMFST)
    (hhom : g.homophones = emptyHom) :
    (adjPairs c ws).foldl repeatStep g =
      { g with states := fun s => g.states s ++ repDelta c ws s } := by
  induction ws generalizing c g with
  | nil => apply PromptLMFST.ext_of <;> simp [adjPairs, repDelta]
  | cons a rest ih =>
    cases rest with
    | nil => apply PromptLMFST.ext_of <;> simp [adjPairs, repDelta]
    | cons b tl =>
      show ((⟨a, c, c + 1⟩, ⟨b, c + 1, c + 2⟩) :: adjPairs (c + 1) (b :: tl)).foldl
          repeatStep g = _
      rw [List.foldl_cons]
      by_cases hab : a = b
      · have hstep : repeatStep g (⟨a, c, c + 1⟩, ⟨b, c + 1, c + 2⟩) = g := by
          simp [repeatStep, hab]
        rw [hstep, ih (c + 1) g hhom]
        apply PromptLMFST.ext_of <;> simp [repDelta, hab]
      · have hstep : repeatStep g (⟨a, c, c + 1⟩, ⟨b, c + 1, c + 2⟩) =
            pushArc g (c + 1) (c + 1) a a (weights "Repeat") := by
          simp only [repeatStep, hab, if_false]
          exact addArc_emptyHom g hhom (c + 1) (c + 1) a a (weights "Repeat")
        rw [hstep, ih (c + 1) (pushArc g (c + 1) (c + 1) a a (weights "Repeat")) hhom]
        apply PromptLMFST.ext_of <;> try simp [pushArc]
        intro s
        by_cases hs : s = c + 1 <;> simp [pushArc, hs, repDelta, hab]

/-- Claim C7: with the word chain `extChain 0 ws` ingested and the default
empty homophone relation, the repeat generator adds, for each adjacent pair
with differing labels, exactly one self-loop at the first word's final state
labelled with that word at the Repeat weight; it adds nothing at the shared
state of an equal-labelled pair (so for `A A B` no repeat loop appears
between the two `A`s and the loop appears once, at the final `A`'s state);
and the last word's final state always receives its self-loop
unconditionally. -/
theorem addRepeatPaths_spec (ws : List String) (g : PromptLMFST)
    (hhom : g.homophones = emptyHom) (hw : g.words = extChain 0 ws) (hne : ws ≠ []) :
    (∀ i, i + 1 < ws.length → ws.getD i "" ≠ ws.getD (i + 1) "" →
      (addRepeatPaths g).states (i + 1) = g.states (i + 1) ++
        [Leaf.arc ⟨i + 1, i + 1, ws.getD i "", ws.getD i "", weights "Repeat"⟩])
    ∧ (∀ i, i + 1 < ws.length → ws.getD i "" = ws.getD (i + 1) "" →
      (addRepeatPaths g).states (i + 1) = g.states (i + 1))
    ∧ (addRepeatPaths g).states ws.length = g.states ws.length ++
        [Leaf.arc ⟨ws.length, ws.length, ws.getD (ws.length - 1) "",
          ws.getD (ws.length - 1) "", weights "Repeat"⟩] := by
  have h1 : addRepeatPaths g =
      addArc { g with states := fun s => g.states s ++ repDelta 0 ws s }
        (0 + ws.length) (0 + ws.length) (ws.getD (ws.length - 1) "")
        (ws.getD (ws.length - 1) "") (weights "Repeat") := by
    simp only [addRepeatPaths, hw, zipAdj_extChain, repeat_fold ws 0 g hhom,
      extChain_getLast? 0 ws hne]
  have hkey : addRepeatPaths g =
      pushArc { g with states := fun s => g.states s ++ repDelta 0 ws s }
        (0 + ws.length) (0 + ws.length) (ws.getD (ws.length - 1) "")
        (ws.getD (ws.length - 1) "") (weights "Repeat") := by
    rw [h1]
    exact addArc_emptyHom { g with states := fun s => g.states s ++ repDelta 0 ws s }
      hhom (0 + ws.length) (0 + ws.length) (ws.getD (ws.length - 1) "")
      (ws.getD (ws.length - 1) "") (weights "Repeat")
  refine ⟨?_, ?_, ?_⟩
  · intro i hi hlab
    have hd := repDelta_at ws 0 i hi
    simp only [Nat.zero_add] at hd
    have hs : i + 1 ≠ 0 + ws.length := by omega
    rw [hkey]
    simp only [pushArc]
    rw [if_neg hs, hd, if_neg hlab]
  · intro i hi hlab
    have hd := repDelta_at ws 0 i hi
    simp only [Nat.zero_add] at hd
    have hs : i + 1 ≠ 0 + ws.length := by omega
    rw [hkey]
    simp only [pushArc]
    rw [if_neg hs, hd, if_pos hlab, List.append_nil]
  · have hd : repDelta 0 ws ws.length = [] :=
      repDelta_high ws 0 ws.length (by omega)
    rw [hkey]
    simp only [pushArc]
    rw [if_pos (by omega : ws.length = 0 + ws.length), hd]
    simp

/-- Witness for C7 at the concrete prompt `A A B` with no homophones. -/
theorem addRepeatPaths_spec_witness :
    (∀ i, i + 1 < promptAAB.length →
      promptAAB.getD i "" ≠ promptAAB.getD (i + 1) "" →
      (addRepeatPaths chainAAB).states (i + 1) = chainAAB.states (i + 1) ++
        [Leaf.arc ⟨i + 1, i + 1, promptAAB.getD i "", promptAAB.getD i "",
          weights "Repeat"⟩])
    ∧ (∀ i, i + 1 < promptAAB.length →
      promptAAB.getD i "" = promptAAB.getD (i + 1) "" →
      (addRepeatPaths chainAAB).states (i + 1) = chainAAB.states (i + 1))
    ∧ (addRepeatPaths chainAAB).states promptAAB.length =
        chainAAB.states promptAAB.length ++
        [Leaf.arc ⟨promptAAB.length, promptAAB.length,
          promptAAB.getD (promptAAB.length - 1) "",
          promptAAB.getD (promptAAB.length - 1) "", weights "Repeat"⟩] :=
  addRepeatPaths_spec promptAAB chainAAB rfl (by decide) (by decide)

theorem countDiff_take_succ_cons (a b : String) (tl : List String) (j : Nat) :
    countDiff ((a :: b :: tl).take (j + 2)) =
      (if a = b then 0 else 1) + countDiff ((b :: tl).take (j + 1)) := by
  simp [List.take_succ_cons, countDiff]

theorem countDiff_take_le (ws : List String) (i : Nat) :
    countDiff (ws.take (i + 1)) ≤ i := by
  induction ws generalizing i with
  | nil => simp [countDiff]
  | cons a rest ih =>
    cases rest with
    | nil =>
      cases i <;> simp [List.take, countDiff]
    | cons b tl =>
      cases i with
      | zero => simp [List.take, countDiff]
      | succ j =>
        have := ih j
        rw [countDiff_take_succ_cons]
        split <;> omega

theorem skipDelta_low (c k : Nat) (ws : List String) (s : Nat)
    (h1 : s < c) (h2 : s ≤ k) : skipDelta c k ws s = [] := by
  induction ws generalizing c k with
  | nil => rfl
  | cons a rest ih =>
    cases rest with
    | nil => rfl
    | cons b tl =>
      have hc : s ≠ c := by omega
      have hk : s ≠ k + 1 := by omega
      by_cases hab : a = b
      · simp [skipDelta, hab, ih (c + 1) k (by omega) h2]
      · simp [skipDelta, hab, hc, hk, ih (c + 1) (k + 1) (by omega) (by omega)]

theorem skipDelta_mid (c k : Nat) (ws : List String) (s : Nat)
    (h1 : s ≤ k) (h2 : c + ws.length ≤ s + 1) : skipDelta c k ws s = [] := by
  induction ws generalizing c k with
  | nil => rfl
  | cons a rest ih =>
    cases rest with
    | nil => rfl
    | cons b tl =>
      have hlen : (a :: b :: tl : List String).length = tl.length + 2 := by simp
      have hc : s ≠ c := by rw [hlen] at h2; omega
      have hk : s ≠ k + 1 := by omega
      by_cases hab : a = b
      · refine Eq.trans (by simp [skipDelta, hab]) (ih (c + 1) k h1 ?_)
        simp only [List.length_cons] at h2 ⊢
        omega
      · have hrec := ih (c + 1) (k + 1) (by omega)
          (by simp only [List.length_cons] at h2 ⊢; omega)
        simp [skipDelta, hab, hc, hk, hrec]

/-- Unfolding `skipDelta` over an equal-labelled head pair. -/
theorem skipDelta_cons_eq (a : String) (tl : List String) (c k s : Nat) :
    skipDelta c k (a :: a :: tl) s = skipDelta (c + 1) k (a :: tl) s := by
  simp [skipDelta]

/-- Unfolding `skipDelta` over a differing head pair. -/
theorem skipDelta_cons_ne (a b : String) (tl : List String) (c k s : Nat) (hab : a ≠ b) :
    skipDelta c k (a :: b :: tl) s =
      ((if s = c then [Leaf.arc ⟨c, k + 1, b, skpLabel, weights "Skip"⟩] else []) ++
       (if s = k + 1 then [Leaf.arc ⟨k + 1, c + 2, epsLabel, b, weights "Correct"⟩] else []))
      ++ skipDelta (c + 1) (k + 1) (b :: tl) s := by
  simp [skipDelta, hab]

/-- Evaluation of `skipDelta` at the chain state of pair `i`. -/
theorem skipDelta_at_chain (ws : List String) (c k i : Nat)
    (hi : i + 1 < ws.length) (hck : c + ws.length ≤ k + 1) :
    skipDelta c k ws (c + i) =
      if ws.getD i "" = ws.getD (i + 1) "" then []
      else [Leaf.arc ⟨c + i, k + countDiff (ws.take (i + 1)) + 1,
        ws.getD (i + 1) "", skpLabel, weights "Skip"⟩] := by
  induction ws generalizing c k i with
  | nil => simp at hi
  | cons a rest ih =>
    cases rest with
    | nil => simp at hi
    | cons b tl =>
      have hck2 : c + tl.length + 2 ≤ k + 1 := by
        simp only [List.length_cons] at hck; omega
      cases i with
      | zero =>
        by_cases hab : a = b
        · subst hab
          have hbd : skipDelta (c + 1) k (a :: tl) c = [] :=
            skipDelta_low _ _ _ _ (by omega) (by omega)
          rw [show c + 0 = c from rfl, skipDelta_cons_eq, hbd]
          simp
        · have hc : ¬(c = k + 1) := by omega
          have hbd : skipDelta (c + 1) (k + 1) (b :: tl) c = [] :=
            skipDelta_low _ _ _ _ (by omega) (by omega)
          have h0 : countDiff ((a :: b :: tl).take (0 + 1)) = 0 := by
            simp [countDiff]
          rw [show c + 0 = c from rfl, skipDelta_cons_ne a b tl c k c hab]
          rw [if_pos rfl, if_neg hc, hbd, h0]
          simp [hab]
      | succ j =>
        have hj : j + 1 < (b :: tl).length := by
          simp only [List.length_cons] at hi ⊢; omega
        have hj2 : j + 1 < tl.length + 1 := by
          simp only [List.length_cons] at hj; omega
        by_cases hab : a = b
        · subst hab
          have hrec := ih (c + 1) k j hj (by simp only [List.length_cons]; omega)
          rw [show c + 1 + j = c + (j + 1) from by omega] at hrec
          have htk : countDiff ((a :: a :: tl).take (j + 1 + 1)) =
              countDiff ((a :: tl).take (j + 1)) := by
            rw [countDiff_take_succ_cons]; simp
          rw [skipDelta_cons_eq, hrec]
          simp only [List.getD_cons_succ, htk]
        · have hrec := ih (c + 1) (k + 1) j hj (by simp only [List.length_cons]; omega)
          rw [show c + 1 + j = c + (j + 1) from by omega] at hrec
          have hc1 : ¬(c + (j + 1) = c) := by omega
          have hc2 : ¬(c + (j + 1) = k + 1) := by omega
          have htk : k + countDiff ((a :: b :: tl).take (j + 1 + 1)) + 1 =
              k + 1 + countDiff ((b :: tl).take (j + 1)) + 1 := by
            rw [countDiff_take_succ_cons]
            simp only [hab, if_false]
            omega
          rw [skipDelta_cons_ne a b tl c k (c + (j + 1)) hab]
          rw [if_neg hc1, if_neg hc2, hrec]
          simp only [List.getD_cons_succ, htk, List.nil_append]

/-- Evaluation of `skipDelta` at the fresh skip state of a differing pair
`i`. -/
theorem skipDelta_at_skip (ws : List String) (c k i : Nat)
    (hi : i + 1 < ws.length) (hck : c + ws.length ≤ k + 1)
    (hlab : ws.getD i "" ≠ ws.getD (i + 1) "") :
    skipDelta c k ws (k + countDiff (ws.take (i + 1)) + 1) =
      [Leaf.arc ⟨k + countDiff (ws.take (i + 1)) + 1, c + i + 2,
        epsLabel, ws.getD (i + 1) "", weights "Correct"⟩] := by
  induction ws generalizing c k i with
  | nil => simp at hi
  | cons a rest ih =>
    cases rest with
    | nil => simp at hi
    | cons b tl =>
      have hck2 : c + tl.length + 2 ≤ k + 1 := by
        simp only [List.length_cons] at hck; omega
      cases i with
      | zero =>
        have hab : a ≠ b := by simpa using hlab
        have h0 : countDiff ((a :: b :: tl).take (0 + 1)) = 0 := by
          simp [countDiff]
        rw [h0]
        have hc : ¬(k + 0 + 1 = c) := by omega
        have hbd : skipDelta (c + 1) (k + 1) (b :: tl) (k + 0 + 1) = [] :=
          skipDelta_mid _ _ _ _ (by omega) (by simp only [List.length_cons]; omega)
        rw [skipDelta_cons_ne a b tl c k (k + 0 + 1) hab]
        rw [if_neg hc, if_pos (by omega : k + 0 + 1 = k + 1), hbd]
        simp
      | succ j =>
        have hj : j + 1 < (b :: tl).length := by
          simp only [List.length_cons] at hi ⊢; omega
        have hj2 : j + 1 < tl.length + 1 := by
          simp only [List.length_cons] at hj; omega
        have hlab2 : (b :: tl).getD j "" ≠ (b :: tl).getD (j + 1) "" := by
          simpa using hlab
        by_cases hab : a = b
        · subst hab
          have hlab3 : (a :: tl).getD j "" ≠ (a :: tl).getD (j + 1) "" := hlab2
          have hrec := ih (c + 1) k j hj (by simp only [List.length_cons]; omega) hlab3
          rw [show c + 1 + j + 2 = c + (j + 1) + 2 from by omega] at hrec
          have htk : countDiff ((a :: a :: tl).take (j + 1 + 1)) =
              countDiff ((a :: tl).take (j + 1)) := by
            rw [countDiff_take_succ_cons]; simp
          rw [htk, skipDelta_cons_eq, hrec]
          simp only [List.getD_cons_succ]
        · have hrec := ih (c + 1) (k + 1) j hj (by simp only [List.length_cons]; omega) hlab2
          rw [show c + 1 + j + 2 = c + (j + 1) + 2 from by omega] at hrec
          have htk : k + countDiff ((a :: b :: tl).take (j + 1 + 1)) + 1 =
              k + 1 + countDiff ((b :: tl).take (j + 1)) + 1 := by
            rw [countDiff_take_succ_cons]
            simp only [hab, if_false]
            omega
          have hD : countDiff ((b :: tl).take (j + 1)) ≤ j := countDiff_take_le _ _
          have hc1 : ¬(k + 1 + countDiff ((b :: tl).take (j + 1)) + 1 = c) := by omega
          have hc2 : ¬(k + 1 + countDiff ((b :: tl).take (j + 1)) + 1 = k + 1) := by omega
          rw [htk, skipDelta_cons_ne a b tl c k _ hab]
          rw [if_neg hc1, if_neg hc2, hrec]
          simp only [List.getD_cons_succ, List.nil_append]

/-- The skip pair loop under the empty homophone relation appends exactly
`skipDelta` and allocates `countDiff` fresh states. -/
theorem skip_fold (ws : List String) (c : Nat) (g : PromptLMFST)
    (hhom : g.homophones = emptyHom) :
    (adjPairs c ws).foldl skipStep g =
      { g with states := fun s => g.states s ++ skipDelta c g.state_counter ws s,
               state_counter := g.state_counter + countDiff ws } := by
  induction ws generalizing c g with
  | nil => apply PromptLMFST.ext_of <;> simp [adjPairs, skipDelta, countDiff]
  | cons a rest ih =>
    cases rest with
    | nil => apply PromptLMFST.ext_of <;> simp [adjPairs, skipDelta, countDiff]
    | cons b tl =>
      show ((⟨a, c, c + 1⟩, ⟨b, c + 1, c + 2⟩) :: adjPairs (c + 1) (b :: tl)).foldl
          skipStep g = _
      rw [List.foldl_cons]
      by_cases hab : a = b
      · subst hab
        have hstep : skipStep g (⟨a, c, c + 1⟩, ⟨a, c + 1, c + 2⟩) = g := by
          simp [skipStep]
        rw [hstep, ih (c + 1) g hhom]
        refine PromptLMFST.ext_of _ _ rfl ?_ ?_ rfl rfl
        · intro s
          show g.states s ++ skipDelta (c + 1) g.state_counter (a :: tl) s =
            g.states s ++ skipDelta c g.state_counter (a :: a :: tl) s
          rw [skipDelta_cons_eq]
        · simp [countDiff]
      · have hstep : skipStep g (⟨a, c, c + 1⟩, ⟨b, c + 1, c + 2⟩) =
            pushArc (pushArc { g with state_counter := g.state_counter + 1 }
                c (g.state_counter + 1) b skpLabel (weights "Skip"))
              (g.state_counter + 1) (c + 2) epsLabel b (weights "Correct") := by
          simp only [skipStep, hab, if_false, newState]
          rw [addArc_emptyHom { g with state_counter := g.state_counter + 1 } hhom]
          rw [addArc_emptyHom (pushArc { g with state_counter := g.state_counter + 1 }
              c (g.state_counter + 1) b skpLabel (weights "Skip")) hhom]
        rw [hstep, ih (c + 1)
          (pushArc (pushArc { g with state_counter := g.state_counter + 1 }
              c (g.state_counter + 1) b skpLabel (weights "Skip"))
            (g.state_counter + 1) (c + 2) epsLabel b (weights "Correct")) hhom]
        refine PromptLMFST.ext_of _ _ rfl ?_ ?_ rfl rfl
        · intro s
          simp only [pushArc]
          rw [skipDelta_cons_ne a b tl c g.state_counter s hab]
          by_cases h1 : s = c <;> by_cases h2 : s = g.state_counter + 1 <;>
            by_cases h3 : c = g.state_counter + 1 <;>
            simp_all [List.append_assoc]
        · simp only [pushArc, countDiff, hab, if_false]
          omega

/-- Claim C6: with the word chain `extChain 0 ws` ingested, the default
empty homophone relation, all chain states within the counter and the
states above the counter still empty, the skip generator adds, for each
adjacent pair with differing labels, a fresh intermediate state carrying
exactly one epsilon-input arc to the next word's final state and exactly one
arc from the pair's start state consuming the next word's label while
emitting the skip marker; it adds no skip arc for an equal-labelled pair
(so for `A A B` no skip arc at the `A`/`A` boundary and exactly one at the
`A`→`B` boundary); and it adds one epsilon-input/skip-marker-output arc from
the last word's start state to its final state. -/
theorem addSkipPaths_spec (ws : List String) (g : PromptLMFST)
    (hhom : g.homophones = emptyHom) (hw : g.words = extChain 0 ws) (hne : ws ≠ [])
    (hk : ws.length ≤ g.state_counter + 1)
    (hfresh : ∀ d, d < ws.length → g.states (g.state_counter + d + 1) = []) :
    (∀ i, i + 1 < ws.length → ws.getD i "" ≠ ws.getD (i + 1) "" →
      ∃ sk, g.state_counter < sk ∧
        (addSkipPaths g).states i = g.states i ++
          [Leaf.arc ⟨i, sk, ws.getD (i + 1) "", skpLabel, weights "Skip"⟩] ∧
        (addSkipPaths g).states sk =
          [Leaf.arc ⟨sk, i + 2, epsLabel, ws.getD (i + 1) "", weights "Correct"⟩])
    ∧ (∀ i, i + 1 < ws.length → ws.getD i "" = ws.getD (i + 1) "" →
      (addSkipPaths g).states i = g.states i)
    ∧ (addSkipPaths g).states (ws.length - 1) = g.states (ws.length - 1) ++
      [Leaf.arc ⟨ws.length - 1, ws.length, epsLabel, skpLabel, weights "Skip"⟩] := by
  have hlpos : 0 < ws.length := List.length_pos.mpr hne
  have h1 : addSkipPaths g =
      addArc { g with states := fun s => g.states s ++ skipDelta 0 g.state_counter ws s,
                      state_counter := g.state_counter + countDiff ws }
        (0 + ws.length - 1) (0 + ws.length) epsLabel skpLabel (weights "Skip") := by
    simp only [addSkipPaths, hw, zipAdj_extChain, skip_fold ws 0 g hhom,
      extChain_getLast? 0 ws hne]
  have hkey : addSkipPaths g =
      pushArc { g with states := fun s => g.states s ++ skipDelta 0 g.state_counter ws s,
                       state_counter := g.state_counter + countDiff ws }
        (0 + ws.length - 1) (0 + ws.length) epsLabel skpLabel (weights "Skip") := by
    rw [h1]
    exact addArc_emptyHom
      { g with states := fun s => g.states s ++ skipDelta 0 g.state_counter ws s,
               state_counter := g.state_counter + countDiff ws }
      hhom (0 + ws.length - 1) (0 + ws.length) epsLabel skpLabel (weights "Skip")
  refine ⟨?_, ?_, ?_⟩
  · intro i hi hlab
    refine ⟨g.state_counter + countDiff (ws.take (i + 1)) + 1, by omega, ?_, ?_⟩
    · have hd := skipDelta_at_chain ws 0 g.state_counter i hi (by omega)
      simp only [Nat.zero_add] at hd
      rw [hkey]
      simp only [pushArc]
      rw [if_neg (by omega : ¬(i = 0 + ws.length - 1)), hd, if_neg hlab]
    · have hD : countDiff (ws.take (i + 1)) ≤ i := countDiff_take_le _ _
      have hd := skipDelta_at_skip ws 0 g.state_counter i hi (by omega) hlab
      simp only [Nat.zero_add] at hd
      have hempty : g.states (g.state_counter + countDiff (ws.take (i + 1)) + 1) = [] :=
        hfresh (countDiff (ws.take (i + 1))) (by omega)
      rw [hkey]
      simp only [pushArc]
      rw [if_neg (by omega :
            ¬(g.state_counter + countDiff (ws.take (i + 1)) + 1 = 0 + ws.length - 1)),
        hd, hempty]
      simp
  · intro i hi hlab
    have hd := skipDelta_at_chain ws 0 g.state_counter i hi (by omega)
    simp only [Nat.zero_add] at hd
    rw [hkey]
    simp only [pushArc]
    rw [if_neg (by omega : ¬(i = 0 + ws.length - 1)), hd, if_pos hlab,
      List.append_nil]
  · have hd : skipDelta 0 g.state_counter ws (ws.length - 1) = [] :=
      skipDelta_mid _ _ _ _ (by omega) (by omega)
    rw [hkey]
    simp only [pushArc]
    rw [if_pos (by omega : ws.length - 1 = 0 + ws.length - 1), hd, List.append_nil]
    have hz1 : 0 + ws.length - 1 = ws.length - 1 := by omega
    have hz2 : 0 + ws.length = ws.length := by omega
    rw [hz1, hz2]

/-- Witness for C6 at the concrete prompt `A A B` with no homophones. -/
theorem addSkipPaths_spec_witness :
    (∀ i, i + 1 < promptAAB.length →
      promptAAB.getD i "" ≠ promptAAB.getD (i + 1) "" →
      ∃ sk, chainAAB.state_counter < sk ∧
        (addSkipPaths chainAAB).states i = chainAAB.states i ++
          [Leaf.arc ⟨i, sk, promptAAB.getD (i + 1) "", skpLabel, weights "Skip"⟩] ∧
        (addSkipPaths chainAAB).states sk =
          [Leaf.arc ⟨sk, i + 2, epsLabel, promptAAB.getD (i + 1) "", weights "Correct"⟩])
    ∧ (∀ i, i + 1 < promptAAB.length →
      promptAAB.getD i "" = promptAAB.getD (i + 1) "" →
      (addSkipPaths chainAAB).states i = chainAAB.states i)
    ∧ (addSkipPaths chainAAB).states (promptAAB.length - 1) =
        chainAAB.states (promptAAB.length - 1) ++
        [Leaf.arc ⟨promptAAB.length - 1, promptAAB.length, epsLabel, skpLabel,
          weights "Skip"⟩] :=
  addSkipPaths_spec promptAAB chainAAB rfl (by decide) (by decide) (by decide)
    (by decide)

/-- Claim C8: for every sequence of `addNextWord` calls (driven by
`addWordSequence` from a fresh graph), the first word's start is the graph's
initial state `0`, every later word's start equals the previous word's
final state, and every word's final state is the freshly allocated state
`i + 1` (the value returned by the `i+1`-st `newState` call, distinct from
every state previously in use); hence `wᵢ.final = wᵢ₊₁.start` throughout. -/
theorem word_chain_contract (hom : String → List String) (ws : List String) :
    (addWordSequence (initFST hom) ws).words.length = ws.length
    ∧ (0 < ws.length →
        ((addWordSequence (initFST hom) ws).words.getD 0 ⟨"", 0, 0⟩).start = 0)
    ∧ (∀ i, i + 1 < ws.length →
        ((addWordSequence (initFST hom) ws).words.getD (i + 1) ⟨"", 0, 0⟩).start =
          ((addWordSequence (initFST hom) ws).words.getD i ⟨"", 0, 0⟩).final)
    ∧ (∀ i, i < ws.length →
        ((addWordSequence (initFST hom) ws).words.getD i ⟨"", 0, 0⟩).start = i ∧
        ((addWordSequence (initFST hom) ws).words.getD i ⟨"", 0, 0⟩).final = i + 1) := by
  rw [addWordSequence_init hom ws]
  refine ⟨extChain_length 0 ws, ?_, ?_, ?_⟩
  · intro h
    rw [extChain_getD 0 0 ws ⟨"", 0, 0⟩ h]
  · intro i hi
    rw [extChain_getD 0 (i + 1) ws ⟨"", 0, 0⟩ hi,
      extChain_getD 0 i ws ⟨"", 0, 0⟩ (by omega)]
    simp
  · intro i hi
    rw [extChain_getD 0 i ws ⟨"", 0, 0⟩ hi]
    simp

/-- Witness for C8 at the concrete prompt `A A B`. -/
theorem word_chain_contract_witness :
    (addWordSequence (initFST emptyHom) promptAAB).words.length = promptAAB.length
    ∧ (0 < promptAAB.length →
        ((addWordSequence (initFST emptyHom) promptAAB).words.getD 0 ⟨"", 0, 0⟩).start = 0)
    ∧ (∀ i, i + 1 < promptAAB.length →
        ((addWordSequence (initFST emptyHom) promptAAB).words.getD (i + 1) ⟨"", 0, 0⟩).start =
          ((addWordSequence (initFST emptyHom) promptAAB).words.getD i ⟨"", 0, 0⟩).final)
    ∧ (∀ i, i < promptAAB.length →
        ((addWordSequence (initFST emptyHom) promptAAB).words.getD i ⟨"", 0, 0⟩).start = i ∧
        ((addWordSequence (initFST emptyHom) promptAAB).words.getD i ⟨"", 0, 0⟩).final = i + 1) :=
  word_chain_contract emptyHom promptAAB

/-- Claim C9: `curr_word` returns the most recently appended word (the last
word of the chain) when at least one word has been appended, and fails with
the uninitialised-chain error (spec name: `UninitializedChainError`; the
source raises `RuntimeError` with this message) exactly when no word has
been appended yet. -/
theorem curr_word_spec (hom : String → List String) (ws : List String) :
    (ws = [] → curr_word (addWordSequence (initFST hom) ws) =
      Except.error "RuntimeError: Tried to get current word but no words added yet.")
    ∧ (ws ≠ [] → curr_word (addWordSequence (initFST hom) ws) =
      Except.ok ⟨ws.getD (ws.length - 1) "", ws.length - 1, ws.length⟩) := by
  rw [addWordSequence_init hom ws]
  constructor
  · intro h
    subst h
    rfl
  · intro h
    have hlpos : 0 < ws.length := List.length_pos.mpr h
    simp only [curr_word, List.isEmpty_eq_true]
    rw [if_pos (by simp [h]), extChain_getLast? 0 ws h]
    simp only [Nat.zero_add]

/-- Witness for C9: the empty and the non-empty chain, concretely. -/
theorem curr_word_spec_witness :
    (curr_word (addWordSequence (initFST emptyHom) []) =
      Except.error "RuntimeError: Tried to get current word but no words added yet.")
    ∧ (curr_word (addWordSequence (initFST emptyHom) promptAAB) =
      Except.ok ⟨promptAAB.getD (promptAAB.length - 1) "",
        promptAAB.length - 1, promptAAB.length⟩) :=
  ⟨(curr_word_spec emptyHom []).1 rfl,
   (curr_word_spec emptyHom promptAAB).2 (by decide)⟩

/-- Appending a final marker at any state leaves every homophone-guard query
unchanged: the marker's `in_label` reads as `None` and the homophone lookup
of `None` is the empty set. -/
theorem homophoneArcExists_addFinalState (g : PromptLMFST) (st : Nat) (fw : ℚ)
    (f : Nat) (il : String) :
    homophoneArcExists (addFinalState g st fw) f il = homophoneArcExists g f il := by
  by_cases hfs : f = st <;>
    simp [homophoneArcExists, addFinalState, hfs, homLookup, leafInLabel]

/-- Claim C10: `addFinalState(s, w)` never changes the outcome of a
subsequent `addArc` at any state: the guard is unchanged (a final marker's
input label reads as `None`, whose homophone set is empty), so the two calls
commute with respect to which arcs end up in which transition list. -/
theorem addFinalState_addArc_commute (g : PromptLMFST) (st : Nat) (fw : ℚ)
    (f t : Nat) (il ol : String) (w : ℚ) :
    homophoneArcExists (addFinalState g st fw) f il = homophoneArcExists g f il
    ∧ homLookup g.homophones (leafInLabel (Leaf.final ⟨st, fw⟩)) = []
    ∧ ∀ (u : Nat) (a : Arc),
        (Leaf.arc a ∈ (addArc (addFinalState g st fw) f t il ol w).states u ↔
         Leaf.arc a ∈ (addFinalState (addArc g f t il ol w) st fw).states u) := by
  refine ⟨homophoneArcExists_addFinalState g st fw f il, rfl, ?_⟩
  intro u a
  have hg := homophoneArcExists_addFinalState g st fw f il
  simp only [addArc, hg]
  by_cases hex : homophoneArcExists g f il
  · rw [if_pos hex, if_pos hex]
  · rw [if_neg hex, if_neg hex]
    simp only [addFinalState]
    by_cases h1 : u = f <;> by_cases h2 : u = st
    all_goals simp_all [List.mem_append, or_comm, or_assoc, or_left_comm]

/-- The homophone guard, characterized: it fires exactly when some arc
already at the state has the new label in its homophone set.  Final markers
in the list never make it fire. -/
theorem homophoneArcExists_iff (g : PromptLMFST) (f : Nat) (il : String) :
    homophoneArcExists g f il = true ↔
      ∃ a : Arc, Leaf.arc a ∈ g.states f ∧ il ∈ g.homophones a.in_label := by
  rw [homophoneArcExists, List.any_eq_true]
  constructor
  · rintro ⟨item, hmem, hin⟩
    cases item with
    | arc a =>
      refine ⟨a, hmem, ?_⟩
      simpa [leafInLabel, homLookup] using hin
    | final fs => simp [leafInLabel, homLookup] at hin
  · rintro ⟨a, hmem, hin⟩
    refine ⟨Leaf.arc a, hmem, ?_⟩
    simpa [leafInLabel, homLookup] using hin

/-- Counterexample to claim C3 as stated: at a state already holding an arc
whose input label is *equal* to the new label (`"A"`, not listed in the
homophone relation), `addArc` is *not* a no-op — the duplicate arc is
appended and the transition count grows from 1 to 2.  Equality suppression
only happens through the homophone set, i.e. when the label is its own
listed homophone. -/
theorem addArc_equal_label_appended :
    (gOneA.states 0).length = 1 ∧
    ((addArc gOneA 0 2 "A" "A" (weights "Correct")).states 0).length = 2 := by
  constructor <;> rfl

/-- Claim C3 (amended): `addArc(from, to, il, ol, w)` is a silent no-op
exactly when some arc already leaving `from` has an input label `l` with
`il ∈ homophones[l]` (with a `readHomophones`-style relation this includes
an equal label listed in the homophone file, but not an equal label absent
from it); otherwise the arc is appended to `from`'s transition list and no
other state changes. -/
theorem addArc_guard_characterization (g : PromptLMFST) (f t : Nat)
    (il ol : String) (w : ℚ) :
    ((∃ a : Arc, Leaf.arc a ∈ g.states f ∧ il ∈ g.homophones a.in_label) →
      addArc g f t il ol w = g)
    ∧ (¬ (∃ a : Arc, Leaf.arc a ∈ g.states f ∧ il ∈ g.homophones a.in_label) →
      (addArc g f t il ol w).states f =
        g.states f ++ [Leaf.arc ⟨f, t, il, ol, w⟩] ∧
      ∀ u, u ≠ f → (addArc g f t il ol w).states u = g.states u) := by
  constructor
  · intro hex
    rw [addArc, if_pos ((homophoneArcExists_iff g f il).mpr hex)]
  · intro hnex
    have hguard : homophoneArcExists g f il = false := by
      rcases Bool.eq_false_or_eq_true (homophoneArcExists g f il) with h | h
      · exact absurd ((homophoneArcExists_iff g f il).mp h) hnex
      · exact h
    rw [addArc, if_neg (by simp [hguard])]
    exact ⟨by simp, fun u hu => by simp [hu]⟩

/-- Witness for the amended C3: with `read`/`red` homophones and an existing
`read` arc at state 0, adding a `red` arc is a silent no-op (the whole graph
— in particular the transition count at state 0 — is unchanged). -/
theorem addArc_guard_characterization_witness :
    addArc gRead 0 2 "red" "red" (weights "Correct") = gRead :=
  (addArc_guard_characterization gRead 0 2 "red" "red" (weights "Correct")).1
    ⟨⟨0, 1, "read", "read", weights "Correct"⟩, by decide, by decide⟩

/-- Claim C1 (code bug): on the prompt `A B A` with no homophone file, the
full construction leaves state 1 with two distinct outgoing arcs both
labelled `A` — the skip arc `1 → 5` (consuming the second `A`, emitting the
skip marker) and the repeat self-loop `1 → 1` — because `homophoneArcExists`
only consults the homophone sets, which are empty here, and never checks
label equality itself.  This violates the documented determinism invariant. -/
theorem determinism_violation_ABA :
    (((buildMiscueFST emptyHom ["A", "B", "A"]).states 1).filterMap
      leafInLabel).count "A" = 2 := by
  rfl

/-- Companion evaluation: the code's own `isDeterministic` scan would also
reject the `A B A` graph if it did not crash first (state 1 repeats label
`A`); scanning just state 1 returns `False`. -/
theorem determinism_violation_ABA_scan :
    detScanState ((buildMiscueFST emptyHom ["A", "B", "A"]).states 1) [] =
      Except.ok false := by
  rfl

/-- Claim C4 (code bug): `isDeterministic` raises `AttributeError` on every
graph carrying a final-state marker: the membership test tolerates entries
without `in_label` via `getattr`, but the insertion `seen_labels[item.in_label]`
does not.  Every fully constructed graph has a final marker (state `n`), so
the scan fails instead of returning a boolean — here evaluated on the
spec's own `the cat sat` example. -/
theorem isDeterministic_raises_on_final_marker :
    isDeterministic (buildMiscueFST emptyHom ["the", "cat", "sat"]) =
      Except.error () := by
  rfl

/-- Following the per-word correct arcs from state `m` spells out the labels
and lands on state `m + length`. -/
theorem hasPath_chain (g : PromptLMFST) (m : Nat) (ls : List String)
    (h : ∀ idx, idx < ls.length →
      Leaf.arc ⟨m + idx, m + idx + 1, ls.getD idx "", ls.getD idx "", weights "Correct"⟩
        ∈ g.states (m + idx)) :
    HasPath g m ls (m + ls.length) := by
  induction ls generalizing m with
  | nil => exact HasPath.nil m
  | cons l rest ih =>
    have h0 := h 0 (by simp)
    have htail : HasPath g (m + 1) rest (m + 1 + rest.length) := by
      refine ih (m + 1) ?_
      intro idx hidx
      have hh := h (idx + 1) (by simp only [List.length_cons]; omega)
      have e : m + (idx + 1) = m + 1 + idx := by omega
      rw [e] at hh
      simpa using hh
    have e2 : m + 1 + rest.length = m + (l :: rest).length := by
      simp only [List.length_cons]; omega
    rw [e2] at htail
    exact HasPath.cons ⟨m, m + 1, l, l, weights "Correct"⟩ _ rest h0 htail

/-- Claim C5: for every non-empty prompt of ordinary word labels (none of
the reserved special tokens), after the correct-path generator runs on the
ingested chain (an arc `start → final` per word at the Correct weight and a
final marker on the last word's final state), there is a path from the
initial state 0 to an accepting state whose input labels, read in order
with epsilon/marker labels removed, are exactly the prompt. -/
theorem correct_path_exists (hom : String → List String) (ws : List String)
    (hne : ws ≠ []) (hclean : ∀ w ∈ ws, isSpecialLabel w = false) :
    ∃ (labs : List String) (t : Nat),
      HasPath (addCorrectPaths (addWordSequence (initFST hom) ws)) 0 labs t
      ∧ (∃ fw, Leaf.final ⟨t, fw⟩ ∈
          (addCorrectPaths (addWordSequence (initFST hom) ws)).states t)
      ∧ labs.filter (fun l => !(isSpecialLabel l)) = ws := by
  rw [addCorrectPaths_chain hom ws hne]
  refine ⟨ws, ws.length, ?_, ⟨weights "FinalState", ?_⟩, ?_⟩
  · have hmem : ∀ idx, idx < ws.length →
        Leaf.arc ⟨0 + idx, 0 + idx + 1, ws.getD idx "", ws.getD idx "",
            weights "Correct"⟩
          ∈ corrDelta 0 ws (0 + idx) ++
            (if 0 + idx = ws.length
              then [Leaf.final ⟨ws.length, weights "FinalState"⟩] else []) := by
      intro idx hidx
      rw [corrDelta_at ws 0 idx hidx]
      exact List.mem_append_left _ (by simp)
    have := hasPath_chain
      { words := extChain 0 ws,
        states := fun s => corrDelta 0 ws s ++
          (if s = ws.length then [Leaf.final ⟨ws.length, weights "FinalState"⟩] else []),
        state_counter := ws.length, initialised := !ws.isEmpty,
        homophones := hom } 0 ws hmem
    simpa using this
  · show Leaf.final _ ∈ corrDelta 0 ws ws.length ++ _
    rw [if_pos rfl]
    exact List.mem_append_right _ (by simp)
  · rw [List.filter_eq_self]
    intro a ha
    simp [hclean a ha]

/-- Witness for C5 at the concrete prompt `A A B`. -/
theorem correct_path_exists_witness :
    ∃ (labs : List String) (t : Nat),
      HasPath (addCorrectPaths (addWordSequence (initFST emptyHom) promptAAB)) 0 labs t
      ∧ (∃ fw, Leaf.final ⟨t, fw⟩ ∈
          (addCorrectPaths (addWordSequence (initFST emptyHom) promptAAB)).states t)
      ∧ labs.filter (fun l => !(isSpecialLabel l)) = promptAAB :=
  correct_path_exists emptyHom promptAAB (by decide) (by decide)

theorem sum_map_div_real (l : List ℚ) (T : ℝ) :
    (l.map (fun w : ℚ => (w : ℝ) / T)).sum = ((l.sum : ℚ) : ℝ) / T := by
  induction l with
  | nil => simp
  | cons x xs ih =>
    simp only [List.map_cons, List.sum_cons, ih, Rat.cast_add, add_div]

/-- Claim C2: at every state whose competing arc weights are positive, the
normalized probabilities sum to 1; every arc is emitted with cost equal to
the negative natural log of its normalized probability; every final marker
is emitted with its stored weight unchanged; and for competing relative
weights `10` and `30` the emitted costs are `-ln(1/4)` and `-ln(3/4)`. -/
theorem emit_normalized (g : PromptLMFST) (s : Nat)
    (hpos : ∀ w ∈ stateArcWeights g s, 0 < w)
    (hne : stateArcWeights g s ≠ []) :
    ((stateArcWeights g s).map
        (fun w : ℚ => (w : ℝ) / ((stateArcWeights g s).sum : ℝ))).sum = 1
    ∧ (∀ a : Arc, Leaf.arc a ∈ g.states s →
        EmitLine.arc a.from_state a.to_state a.in_label a.out_label
          (-Real.log ((a.weight : ℝ) / ((stateArcWeights g s).sum : ℝ)))
          ∈ emitState g s)
    ∧ (∀ fs : FinalState, Leaf.final fs ∈ g.states s →
        EmitLine.final fs.state (fs.weight : ℝ) ∈ emitState g s)
    ∧ (stateArcWeights g s = [10, 30] →
        (stateArcWeights g s).map
          (fun w : ℚ => -Real.log ((w : ℝ) / ((stateArcWeights g s).sum : ℝ)))
          = [-Real.log (1 / 4), -Real.log (3 / 4)]) := by
  have hT : 0 < (stateArcWeights g s).sum := List.sum_pos _ hpos hne
  have hTR : (((stateArcWeights g s).sum : ℚ) : ℝ) ≠ 0 := by
    exact_mod_cast hT.ne'
  refine ⟨?_, ?_, ?_, ?_⟩
  · rw [sum_map_div_real]
    exact div_self hTR
  · intro a ha
    exact List.mem_map_of_mem _ ha
  · intro fs hfs
    exact List.mem_map_of_mem _ hfs
  · intro h
    rw [h]
    norm_num

/-- Witness for C2 at the two-arc state: probabilities `1/4` and `3/4`,
costs `-ln(1/4)` and `-ln(3/4)`, final weight emitted as-is. -/
theorem emit_normalized_witness :
    ((stateArcWeights gTwoArcs 0).map
        (fun w : ℚ => (w : ℝ) / ((stateArcWeights gTwoArcs 0).sum : ℝ))).sum = 1
    ∧ (∀ a : Arc, Leaf.arc a ∈ gTwoArcs.states 0 →
        EmitLine.arc a.from_state a.to_state a.in_label a.out_label
          (-Real.log ((a.weight : ℝ) / ((stateArcWeights gTwoArcs 0).sum : ℝ)))
          ∈ emitState gTwoArcs 0)
    ∧ (∀ fs : FinalState, Leaf.final fs ∈ gTwoArcs.states 0 →
        EmitLine.final fs.state (fs.weight : ℝ) ∈ emitState gTwoArcs 0)
    ∧ (stateArcWeights gTwoArcs 0 = [10, 30] →
        (stateArcWeights gTwoArcs 0).map
          (fun w : ℚ => -Real.log ((w : ℝ) / ((stateArcWeights gTwoArcs 0).sum : ℝ)))
          = [-Real.log (1 / 4), -Real.log (3 / 4)]) :=
  emit_normalized gTwoArcs 0 (by decide) (by decide)

end MiscueFST
